import Mathlib

/-!
Shallow embedding of the core numerical routines of the `bayes_dip` repository:

* `linear_cg` and `approx_observation_cov_log_det_grads`
  (`bayes_dip/probabilistic_optim/observation_cov_log_det_grad.py`);
* `get_batched_low_rank_observation_cov_basis`
  (`bayes_dip/probabilistic_models/linearized_dip/low_rank_observation_cov.py`);
* `weights_linearization`
  (`bayes_dip/marginal_likelihood_optim/weights_linearization.py`).

Tensors are modelled as functions on `Fin`-indexed coordinates with real entries
(exact arithmetic).  Python exceptions are modelled with an `Except` monad over a
small error type.  External library calls (torch QR / eig / the xitorch CG kernel,
the neural-tangent JVP/VJP maps, the ray transform, the Adam update) are passed in
as explicit function arguments, optionally constrained by the contracts their
documentation states.  Automatic differentiation of a scalar with respect to a
hyperparameter is modelled by the Mathlib derivative of the scalar as a function
of that hyperparameter, with detached tensors entering as constants.
-/

open scoped Matrix

noncomputable section

/-- Python exceptions that the modelled code can raise. -/
inductive PyError where
  | notImplementedError
  | typeError
  | keyError
  | assertionError
  | nameError
  deriving DecidableEq, Repr

/-! ## `linear_cg` (observation_cov_log_det_grad.py, lines 20-58)

The right-hand side `v` has shape `(obs_numel, num_probes)`; we model it as
`Fin M → Fin K → ℝ` (entry `v i j` is row `i`, probe column `j`).  The xitorch
`cg` call (external to this file's sources) is abstracted as a function `cg`
from the scaled right-hand side to a solution of the same shape together with
the achieved residual norm; the operator closure, iteration budget and
tolerances of the source are fixed inside this oracle. -/

/-- Column-wise L2 norm `torch.norm(v, 2, dim=0)`. -/
def colNorm {M K : ℕ} (v : Fin M → Fin K → ℝ) (j : Fin K) : ℝ :=
  Real.sqrt (∑ i, (v i j) ^ 2)

/-- Shallow embedding of `linear_cg`.  The source builds the operator closure,
then raises `NotImplementedError` if a (non-`None`) preconditioner was supplied,
then normalizes each right-hand-side column by its L2 norm, runs the xitorch CG
kernel on the normalized system, and rescales the solution by the column norms. -/
def linear_cg {M K : ℕ}
    (cg : (Fin M → Fin K → ℝ) → ((Fin M → Fin K → ℝ) × ℝ))
    (v : Fin M → Fin K → ℝ)
    (preconditioner : Option Unit) :
    Except PyError ((Fin M → Fin K → ℝ) × ℝ) :=
  match preconditioner with
  | some _ => .error .notImplementedError
  | none =>
      let v_norm := colNorm v
      let v_scaled := fun i j => v i j / v_norm j
      let res := cg v_scaled
      .ok (fun i j => res.1 i j * v_norm j, res.2)

/-- The column-normalized right-hand side fed to the CG kernel. -/
def normalizedRhs {M K : ℕ} (v : Fin M → Fin K → ℝ) : Fin M → Fin K → ℝ :=
  fun i j => v i j / colNorm v j

/-- C1 (counterexample): at the concrete input `v = 1` (one observation entry, one
probe) with an exact CG oracle and a supplied (non-`None`) preconditioner, the
call does not complete a solve: it raises `NotImplementedError`, so no solution
batch and residual norm are returned. -/
theorem linear_cg_precond_notimpl_ce :
    linear_cg (M := 1) (K := 1) (fun w => (w, 0)) (fun _ _ => 1) (some ()) =
      Except.error PyError.notImplementedError := rfl

/-- C1 (amended): for every CG oracle, right-hand-side batch and supplied
(non-`None`) preconditioner, `linear_cg` raises `NotImplementedError` before
performing any solve; the low-rank preconditioner application `M⁻¹ v ≈ U diag(1/L) Uᵗ v`
is not implemented in this code path. -/
theorem linear_cg_precond_raises {M K : ℕ}
    (cg : (Fin M → Fin K → ℝ) → ((Fin M → Fin K → ℝ) × ℝ))
    (v : Fin M → Fin K → ℝ) (p : Unit) :
    linear_cg cg v (some p) = Except.error PyError.notImplementedError := rfl

/-- C5: if every column of the right-hand-side batch is non-zero, then
`linear_cg` (without preconditioner) returns the CG solve of the per-column
normalized system rescaled by the column norms, and each column handed to the
CG kernel has unit L2 norm, so the kernel's relative-tolerance convergence
check is scale-invariant across columns. -/
theorem linear_cg_normalization {M K : ℕ}
    (cg : (Fin M → Fin K → ℝ) → ((Fin M → Fin K → ℝ) × ℝ))
    (v : Fin M → Fin K → ℝ)
    (hv : ∀ j, ∃ i, v i j ≠ 0) :
    linear_cg cg v none =
      Except.ok (fun i j => colNorm v j * (cg (normalizedRhs v)).1 i j,
        (cg (normalizedRhs v)).2) ∧
    ∀ j, colNorm (normalizedRhs v) j = 1 := by
  have hpos : ∀ j, 0 < ∑ i, (v i j) ^ 2 := by
    intro j
    obtain ⟨i, hi⟩ := hv j
    have : (0:ℝ) < (v i j) ^ 2 := by positivity
    exact Finset.sum_pos' (fun k _ => by positivity) ⟨i, Finset.mem_univ i, this⟩
  have hnorm_pos : ∀ j, 0 < colNorm v j := by
    intro j
    exact Real.sqrt_pos.mpr (hpos j)
  constructor
  · show Except.ok (fun i j => (cg (normalizedRhs v)).1 i j * colNorm v j,
        (cg (normalizedRhs v)).2) = _
    exact congrArg Except.ok
      (congrArg (fun f => (f, (cg (normalizedRhs v)).2)) (by funext i j; ring))
  · intro j
    have hne : colNorm v j ≠ 0 := ne_of_gt (hnorm_pos j)
    have hsq : colNorm v j ^ 2 = ∑ i, (v i j) ^ 2 := by
      simpa [colNorm] using Real.sq_sqrt (le_of_lt (hpos j))
    have : ∑ i, (normalizedRhs v i j) ^ 2 = 1 := by
      simp only [normalizedRhs, div_pow]
      rw [← Finset.sum_div, ← hsq, div_self (pow_ne_zero 2 hne)]
    simp only [colNorm, this, Real.sqrt_one]

/-- C5 (witness): the hypothesis of `linear_cg_normalization` holds at the
concrete input `v = 1` with an identity CG oracle, and the theorem applies. -/
theorem linear_cg_normalization_witness :
    (∀ j : Fin 1, ∃ i : Fin 1, (fun (_ : Fin 1) (_ : Fin 1) => (1:ℝ)) i j ≠ 0) ∧
    (linear_cg (fun w => (w, 0)) (fun (_ : Fin 1) (_ : Fin 1) => (1:ℝ)) none =
      Except.ok (fun i j => colNorm (fun (_ : Fin 1) (_ : Fin 1) => (1:ℝ)) j *
          ((fun (w : Fin 1 → Fin 1 → ℝ) => (w, (0:ℝ)))
            (normalizedRhs (fun _ _ => 1))).1 i j,
        ((fun (w : Fin 1 → Fin 1 → ℝ) => (w, (0:ℝ)))
          (normalizedRhs (fun _ _ => 1))).2) ∧
      ∀ j, colNorm (normalizedRhs (fun (_ : Fin 1) (_ : Fin 1) => (1:ℝ))) j = 1) :=
  ⟨fun _ => ⟨0, one_ne_zero⟩,
    linear_cg_normalization (fun w => (w, 0)) (fun _ _ => 1)
      (fun _ => ⟨0, one_ne_zero⟩)⟩

/-! ## `approx_observation_cov_log_det_grads` (observation_cov_log_det_grad.py, lines 60-119)

`ObservationCov`, `LinearSandwichCov` and the probe / ray-transform / neural-tangent
helpers are repository code that is not under `src/`; they are modelled from the
spec below.  In particular, the operators are torch `nn.Module`s, so their
`.parameters()` method returns a generator (an iterator, not a sized container). -/

/-- A Python iterable: either a list (sized) or a generator (not sized). -/
inductive PyIterable (α : Type) where
  | list (xs : List α)
  | generator (xs : List α)

/-- The Python builtin `list(·)`, which consumes any iterable. -/
def pyList {α : Type} : PyIterable α → List α
  | .list xs => xs
  | .generator xs => xs

/-- The Python builtin `len(·)`: defined for sized containers such as lists, but
raising `TypeError` on a generator (`object of type 'generator' has no len()`). -/
def pyLen {α : Type} : PyIterable α → Except PyError ℕ
  | .list xs => .ok xs.length
  | .generator _ => .error .typeError

/-- Modelled from the spec: the observation covariance owns the prior
hyperparameter leaves of `image_cov` plus the scalar `log_noise_variance`
(spec §2, §3: each hyperparameter is "owned by exactly one of {a named
weight-group prior, the global observation-noise term}"). -/
structure ObsCovParams where
  image_cov_params : List ℝ
  log_noise_variance : ℝ

/-- Modelled from the spec: `observation_cov.parameters()` is the torch
`nn.Module` parameter iterator (a generator) over the prior hyperparameters
followed by `log_noise_variance`. -/
def obs_cov_parameters (m : ObsCovParams) : PyIterable ℝ :=
  .generator (m.image_cov_params ++ [m.log_noise_variance])

/-- Modelled from the spec: `image_cov.parameters()` is the torch `nn.Module`
parameter iterator (a generator) over the prior hyperparameters. -/
def image_cov_parameters (m : ObsCovParams) : PyIterable ℝ :=
  .generator m.image_cov_params

/-- Modelled from the spec: `ParameterPriorCov` (the `inner_cov` of the sandwich)
is not under `src/`; per spec §2/§3 it is a diagonal covariance over the flattened
weight vector with one learnable log-variance hyperparameter per named weight
group, acting as `x ↦ exp(log_variance(group(i))) * x i`.  `grp` assigns each
flattened-weight index its group. -/
def inner_cov {P G : ℕ} (grp : Fin P → Fin G) (θ : Fin G → ℝ) (x : Fin P → ℝ) :
    Fin P → ℝ :=
  fun i => Real.exp (θ (grp i)) * x i

/-- The scalar of line 106 of the source,
`torch.sum(image_cov.inner_cov(v_left) * v_right, dim=1).mean()`: the weight-space
scalar product of `inner_cov` applied to the detached left factor with the
detached right factor, summed over weight dimensions and averaged over probes,
as a function of the log-variance hyperparameters `θ`. -/
def v_scalar {N P G : ℕ} (grp : Fin P → Fin G) (left right : Fin N → Fin P → ℝ)
    (θ : Fin G → ℝ) : ℝ :=
  (∑ p, ∑ i, inner_cov grp θ (left p) i * right p i) / N

/-- The scalar as the spec states it (spec §4.4 step 4):
`mean_over_probes( sum_over_weightdims( left · ParameterPriorCov.apply(right) ) )`,
i.e. with the prior covariance applied to the right factor. -/
def v_scalar_spec {N P G : ℕ} (grp : Fin P → Fin G) (left right : Fin N → Fin P → ℝ)
    (θ : Fin G → ℝ) : ℝ :=
  (∑ p, ∑ i, left p i * inner_cov grp θ (right p) i) / N

/-- The gradient returned for a prior hyperparameter `g`
(`torch.autograd.grad((v_scalar,), image_cov_parameters)`, line 108):
automatic differentiation of the scalar with respect to the hyperparameter,
with all other tensors held constant. -/
def image_cov_grad {N P G : ℕ} (grp : Fin P → Fin G) (left right : Fin N → Fin P → ℝ)
    (θ : Fin G → ℝ) (g : Fin G) : ℝ :=
  deriv (fun t => v_scalar grp left right (Function.update θ g t)) (θ g)

/-- The scalar of line 115 of the source,
`torch.sum(v_obs_left_flat * v_flat, dim=0).mean() * log_noise_variance.exp()`:
the per-probe observation-space scalar product of the detached CG solution `x`
with the probe batch `v`, averaged over probes, times the noise variance, as a
function of `log_noise_variance`. -/
def noise_scalar {M N : ℕ} (x v : Fin M → Fin N → ℝ) (θ : ℝ) : ℝ :=
  ((∑ p, ∑ j, x j p * v j p) / N) * Real.exp θ

/-- The gradient returned for `log_noise_variance`
(`torch.autograd.grad((noise_scalar,), (log_noise_variance,))`, line 117). -/
def noise_grad {M N : ℕ} (x v : Fin M → Fin N → ℝ) (θ : ℝ) : ℝ :=
  deriv (noise_scalar x v) θ

/-- The mapping returned by the estimator: one gradient per prior hyperparameter
plus the gradient for `log_noise_variance`. -/
structure LogDetGrads (G : ℕ) where
  image_cov_grads : Fin G → ℝ
  noise_grad : ℝ

/-- Shallow embedding of `approx_observation_cov_log_det_grads`.  The source first
builds `parameters = list(observation_cov.parameters())` and
`image_cov_parameters = list(image_cov.parameters())`, then asserts
`len(parameters) == len(image_cov.parameters()) + 1`, where `len` is applied to a
fresh call of `image_cov.parameters()` (a generator).  The detached probe batch
`v`, CG solution `x` and weight-space pullbacks `left`, `right` that the rest of
the function would compute are taken as inputs here. -/
def approx_observation_cov_log_det_grads {N P G M : ℕ} (m : ObsCovParams)
    (grp : Fin P → Fin G) (θ : Fin G → ℝ)
    (x v : Fin M → Fin N → ℝ) (left right : Fin N → Fin P → ℝ) :
    Except PyError (LogDetGrads G) := do
  let parameters := pyList (obs_cov_parameters m)
  let _image_cov_parameters := pyList (image_cov_parameters m)
  let innerLen ← pyLen (image_cov_parameters m)
  if parameters.length = innerLen + 1 then
    pure { image_cov_grads := fun g => image_cov_grad grp left right θ g,
           noise_grad := noise_grad x v m.log_noise_variance }
  else
    .error .assertionError

/-- C2: for every observation covariance (every list of prior hyperparameters and
noise log-variance) and all estimator inputs, `approx_observation_cov_log_det_grads`
raises `TypeError` at its parameter-count assertion, because `len` is applied to
the generator returned by `image_cov.parameters()`; the function never returns a
gradient mapping. -/
theorem approx_log_det_grads_typeerror {N P G M : ℕ} (m : ObsCovParams)
    (grp : Fin P → Fin G) (θ : Fin G → ℝ)
    (x v : Fin M → Fin N → ℝ) (left right : Fin N → Fin P → ℝ) :
    approx_observation_cov_log_det_grads m grp θ x v left right =
      Except.error PyError.typeError := rfl

/-- C3: the code's scalar (prior covariance applied to the left factor) equals the
spec's scalar (prior covariance applied to the right factor) for all
hyperparameter values, hence the gradient returned for each prior hyperparameter
equals the automatic-differentiation gradient of the spec's scalar
`mean_over_probes( sum_over_weightdims( left · ParameterPriorCov.apply(right) ) )`;
the derivative in each hyperparameter moreover has the closed form
`exp(θ g) ·  mean_over_probes( sum over the weight indices of group g of left·right )`,
so only the prior covariance's own parameters receive gradient (the detached
`left`/`right` enter as constants). -/
theorem image_cov_grads_match_spec {N P G : ℕ} (grp : Fin P → Fin G)
    (left right : Fin N → Fin P → ℝ) :
    v_scalar grp left right = v_scalar_spec grp left right ∧
    (∀ (θ : Fin G → ℝ) (g : Fin G),
      image_cov_grad grp left right θ g =
        deriv (fun t => v_scalar_spec grp left right (Function.update θ g t)) (θ g)) ∧
    (∀ (θ : Fin G → ℝ) (g : Fin G),
      HasDerivAt (fun t => v_scalar grp left right (Function.update θ g t))
        ((∑ p, ∑ i, if grp i = g then Real.exp (θ g) * (left p i * right p i) else 0) / N)
        (θ g)) := by
  have heq : v_scalar grp left right = v_scalar_spec grp left right := by
    funext θ
    unfold v_scalar v_scalar_spec inner_cov
    congr 1
    refine Finset.sum_congr rfl fun p _ => Finset.sum_congr rfl fun i _ => by ring
  refine ⟨heq, fun θ g => by rw [image_cov_grad, heq], fun θ g => ?_⟩
  have key : ∀ (p : Fin N) (i : Fin P),
      HasDerivAt (fun t => inner_cov grp (Function.update θ g t) (left p) i * right p i)
        (if grp i = g then Real.exp (θ g) * (left p i * right p i) else 0) (θ g) := by
    intro p i
    by_cases h : grp i = g
    · have hd : HasDerivAt (fun t : ℝ => Real.exp t * (left p i * right p i))
          (Real.exp (θ g) * (left p i * right p i)) (θ g) :=
        (Real.hasDerivAt_exp (θ g)).mul_const _
      rw [if_pos h]
      refine hd.congr_of_eventuallyEq (Filter.Eventually.of_forall fun t => ?_)
      simp only [inner_cov, Function.update_apply, h, if_pos]
      ring
    · have hd : HasDerivAt
          (fun _ : ℝ => Real.exp (θ (grp i)) * left p i * right p i) 0 (θ g) :=
        hasDerivAt_const _ _
      rw [if_neg h]
      refine hd.congr_of_eventuallyEq (Filter.Eventually.of_forall fun t => ?_)
      simp only [inner_cov, Function.update_apply, h, if_false]
  have hsum : HasDerivAt
      (fun t => ∑ p, ∑ i,
        inner_cov grp (Function.update θ g t) (left p) i * right p i)
      (∑ p, ∑ i, if grp i = g then Real.exp (θ g) * (left p i * right p i) else 0)
      (θ g) := by
    refine HasDerivAt.sum fun p _ => HasDerivAt.sum fun i _ => key p i
  exact hsum.div_const N

/-- C4: the gradient returned for the noise-variance hyperparameter equals
`mean_over_probes( sum_over_observationdims( x · v ) ) · exp(log_noise_variance)`,
the chain rule through the log-space parameterization, computed directly on the
observation-space scalar product (no weight-space pullback enters `noise_scalar`). -/
theorem noise_variance_grad_formula {M N : ℕ} (x v : Fin M → Fin N → ℝ) (θ : ℝ) :
    HasDerivAt (noise_scalar x v)
      (((∑ p, ∑ j, x j p * v j p) / N) * Real.exp θ) θ ∧
    noise_grad x v θ = ((∑ p, ∑ j, x j p * v j p) / N) * Real.exp θ := by
  have hd : HasDerivAt (noise_scalar x v)
      (((∑ p, ∑ j, x j p * v j p) / N) * Real.exp θ) θ := by
    simpa [noise_scalar] using (Real.hasDerivAt_exp θ).const_mul
      ((∑ p, ∑ j, x j p * v j p) / (N : ℝ))
  exact ⟨hd, hd.deriv⟩

/-! ## `get_batched_low_rank_observation_cov_basis` (low_rank_observation_cov.py, lines 67-130)

The prior-only observation covariance operator (`super().forward(·, use_noise_variance=False)`,
external to this file's claims) is abstracted as a map `A` on single observation
vectors; applying it to a batch acts row-wise.  The random matrix `Ω` has
`k + p` rows (`low_rank_rank_dim + oversampling_param`) of length `M`
(`np.prod(obs_shape)`).  `torch.linalg.qr` and `torch.linalg.eig` are external
torch kernels, abstracted as oracles `qr` (returning the orthonormal factor)
and `eig` (returning the real parts of the eigenvector matrix and eigenvalues,
as the source keeps only `V.real` and `L.real`); `torch.linalg.solve` is exact,
modelled by multiplication with the matrix inverse. -/

/-- Row `j` of the zero-padded random matrix: the source pads the final partial
batch with zero rows (`torch.cat([rnd_vect, torch.zeros(...)])`). -/
def padRow {M r : ℕ} (Ω : Fin r → Fin M → ℝ) (j : ℕ) : Fin M → ℝ :=
  if h : j < r then Ω ⟨j, h⟩ else 0

/-- Batch `i` of the probing loop: slice rows `[i*b, (i+1)*b)` of the random
matrix, zero-pad to `b` rows, apply the operator row-wise, and keep only the
first `eff = min b (r - i*b)` rows (`v = v[:eff_batch_size]`). -/
def assembleBatch {M r : ℕ} (A : (Fin M → ℝ) → (Fin M → ℝ)) (Ω : Fin r → Fin M → ℝ)
    (b i : ℕ) : List (Fin M → ℝ) :=
  (((List.range b).map fun o => A (padRow Ω (i * b + o))).take (min b (r - i * b)))

/-- The probing loop: `num_batches = ceil(r / b)` batches, concatenated
(`v_cov_obs_mat = torch.cat(v_cov_obs_mat)`). -/
def assembleYList {M r : ℕ} (A : (Fin M → ℝ) → (Fin M → ℝ)) (Ω : Fin r → Fin M → ℝ)
    (b : ℕ) : List (Fin M → ℝ) :=
  (List.range ((r + b - 1) / b)).flatMap (assembleBatch A Ω b)

/-- The assembled probing matrix `v_cov_obs_mat.view(r, -1).T` of shape `(M, r)`:
column `j` is the `j`-th concatenated result row. -/
def YmatOf {M r : ℕ} (A : (Fin M → ℝ) → (Fin M → ℝ)) (Ω : Fin r → Fin M → ℝ)
    (b : ℕ) : Matrix (Fin M) (Fin r) ℝ :=
  Matrix.of fun m j => (assembleYList A Ω b).getD j 0 m

/-- Written from the spec's words for the refinement claim C8: the probing matrix
obtained by applying the operator to all `k + oversampling` rows of the fixed
random matrix at once, `Y = A Ωᵗ`. -/
def one_shot_Y {M r : ℕ} (A : (Fin M → ℝ) → (Fin M → ℝ)) (Ω : Fin r → Fin M → ℝ) :
    Matrix (Fin M) (Fin r) ℝ :=
  Matrix.of fun m j => A (Ω j) m

/-- The small Rayleigh-quotient-like matrix
`B = torch.linalg.solve(random_matrix @ Q, v_cov_obs_mat.T @ Q) = (Ω Q)⁻¹ (Yᵗ Q)`. -/
def small_B {M r : ℕ} (Ω : Matrix (Fin r) (Fin M) ℝ) (Y Q : Matrix (Fin M) (Fin r) ℝ) :
    Matrix (Fin r) (Fin r) ℝ :=
  (Ω * Q)⁻¹ * (Yᵀ * Q)

/-- Shallow embedding of `get_batched_low_rank_observation_cov_basis`:
assemble `Y` batch-wise, orthonormalize (`Q, _ = torch.linalg.qr(Y)`), form
`B`, eigendecompose (`L, V = torch.linalg.eig(B)`, real parts kept), set
`U = Q @ V.real`, and return `U[:, :k]` and `L.real[:k].clamp_(min=eps)`,
where `k` is `low_rank_rank_dim` and `r = k + p` with `p` the oversampling. -/
def get_batched_low_rank_observation_cov_basis {M k p : ℕ}
    (A : (Fin M → ℝ) → (Fin M → ℝ)) (Ω : Matrix (Fin (k + p)) (Fin M) ℝ)
    (b : ℕ)
    (qr : Matrix (Fin M) (Fin (k + p)) ℝ → Matrix (Fin M) (Fin (k + p)) ℝ)
    (eig : Matrix (Fin (k + p)) (Fin (k + p)) ℝ →
      Matrix (Fin (k + p)) (Fin (k + p)) ℝ × (Fin (k + p) → ℝ))
    (eps : ℝ) :
    Matrix (Fin M) (Fin k) ℝ × (Fin k → ℝ) :=
  let Y := YmatOf A Ω b
  let Q := qr Y
  let B := small_B Ω Y Q
  let V := (eig B).1
  let L := (eig B).2
  let U := Q * V
  (U.submatrix id (Fin.castAdd p), fun i => max (L (Fin.castAdd p i)) eps)

lemma ceil_mul_ge (r b : ℕ) (hb : 1 ≤ b) : r ≤ ((r + b - 1) / b) * b := by
  by_contra h
  push_neg at h
  have h1 : ((r + b - 1) / b + 1) * b ≤ r + b - 1 := by
    have h0 : (r + b - 1) / b * b + b ≤ r + b - 1 := by omega
    calc ((r + b - 1) / b + 1) * b = (r + b - 1) / b * b + b := by
          rw [Nat.add_mul, Nat.one_mul]
      _ ≤ r + b - 1 := h0
  have h2 : (r + b - 1) / b + 1 ≤ (r + b - 1) / b :=
    (Nat.le_div_iff_mul_le (by omega : 0 < b)).mpr h1
  omega

lemma assembleBatch_eq {M r : ℕ} (A : (Fin M → ℝ) → (Fin M → ℝ))
    (Ω : Fin r → Fin M → ℝ) (b i : ℕ) :
    assembleBatch A Ω b i =
      (List.range (min b (r - i * b))).map fun o => A (padRow Ω (i * b + o)) := by
  unfold assembleBatch
  rw [← List.map_take, List.take_range,
    min_eq_left (min_le_left b (r - i * b))]

lemma flatMap_assembleBatch {M r : ℕ} (A : (Fin M → ℝ) → (Fin M → ℝ))
    (Ω : Fin r → Fin M → ℝ) (b : ℕ) (n : ℕ) :
    (List.range n).flatMap (assembleBatch A Ω b) =
      (List.range (min (n * b) r)).map fun j => A (padRow Ω j) := by
  induction n with
  | zero => simp
  | succ n ih =>
    rw [List.range_succ, List.flatMap_append, ih,
      show List.flatMap [n] (assembleBatch A Ω b) = assembleBatch A Ω b n by simp,
      assembleBatch_eq]
    by_cases hr : r ≤ n * b
    · have h1 : min (n * b) r = r := min_eq_right hr
      have h2 : min b (r - n * b) = 0 := by omega
      have h3 : min ((n + 1) * b) r = r := by
        refine min_eq_right (le_trans hr ?_)
        exact Nat.mul_le_mul_right b (Nat.le_succ n)
      rw [h1, h2, h3]
      simp
    · push_neg at hr
      have key : ∀ nb, nb < r → min (nb + b) r = nb + min b (r - nb) := by
        intro nb h
        omega
      have h1 : min (n * b) r = n * b := min_eq_left (le_of_lt hr)
      rw [h1, Nat.succ_mul, key (n * b) hr, List.range_add, List.map_append,
        List.map_map]
      rfl

lemma assembleYList_eq {M r : ℕ} (A : (Fin M → ℝ) → (Fin M → ℝ))
    (Ω : Fin r → Fin M → ℝ) (b : ℕ) (hb : 1 ≤ b) :
    assembleYList A Ω b = (List.range r).map fun j => A (padRow Ω j) := by
  unfold assembleYList
  rw [flatMap_assembleBatch A Ω b, min_eq_right (ceil_mul_ge r b hb)]

lemma YmatOf_eq_one_shot {M r : ℕ} (A : (Fin M → ℝ) → (Fin M → ℝ))
    (Ω : Fin r → Fin M → ℝ) (b : ℕ) (hb : 1 ≤ b) :
    YmatOf A Ω b = one_shot_Y A Ω := by
  unfold YmatOf one_shot_Y
  ext m j
  rw [Matrix.of_apply, Matrix.of_apply, assembleYList_eq A Ω b hb,
    List.getD_eq_getElem?_getD, List.getElem?_map, List.getElem?_range j.isLt]
  simp [padRow]

/-- C6: whenever the external torch kernels meet their contracts in exact
arithmetic — `qr` returns a factor with orthonormal columns, and on the
(symmetric, in the idealized regime) small matrix `B` the eigendecomposition
returns real eigenvectors of unit norm satisfying the eigen-equation with
pairwise-distinct eigenvalues — every `(U, L)` pair returned by
`get_batched_low_rank_observation_cov_basis` has exactly orthonormal columns
(`Uᵗ U = 1`) and non-negative `L` (every entry is clamped up to `eps ≥ 0`). -/
theorem low_rank_basis_orthonormal_nonneg {M k p : ℕ}
    (A : (Fin M → ℝ) → (Fin M → ℝ)) (Ω : Matrix (Fin (k + p)) (Fin M) ℝ)
    (b : ℕ)
    (qr : Matrix (Fin M) (Fin (k + p)) ℝ → Matrix (Fin M) (Fin (k + p)) ℝ)
    (eig : Matrix (Fin (k + p)) (Fin (k + p)) ℝ →
      Matrix (Fin (k + p)) (Fin (k + p)) ℝ × (Fin (k + p) → ℝ))
    (eps : ℝ)
    (Q : Matrix (Fin M) (Fin (k + p)) ℝ)
    (V : Matrix (Fin (k + p)) (Fin (k + p)) ℝ) (L : Fin (k + p) → ℝ)
    (hQdef : Q = qr (YmatOf A Ω b))
    (hVL : (V, L) = eig (small_B Ω (YmatOf A Ω b) Q))
    (hQ : Qᵀ * Q = 1)
    (hSym : (small_B Ω (YmatOf A Ω b) Q)ᵀ = small_B Ω (YmatOf A Ω b) Q)
    (hEig : small_B Ω (YmatOf A Ω b) Q * V = V * Matrix.diagonal L)
    (hUnit : ∀ j, (Vᵀ * V) j j = 1)
    (hDist : Function.Injective L)
    (hEps : 0 ≤ eps) :
    ((get_batched_low_rank_observation_cov_basis A Ω b qr eig eps).1ᵀ *
      (get_batched_low_rank_observation_cov_basis A Ω b qr eig eps).1 = 1) ∧
    (∀ i, 0 ≤ (get_batched_low_rank_observation_cov_basis A Ω b qr eig eps).2 i) := by
  subst hQdef
  set Y := YmatOf A Ω b with hYdef
  set B := small_B Ω Y (qr Y) with hBdef
  have hV : V = (eig B).1 := congrArg Prod.fst hVL
  have hL : L = (eig B).2 := congrArg Prod.snd hVL
  have hVV : Vᵀ * V = 1 := by
    have h1 : Vᵀ * B * V = (Vᵀ * V) * Matrix.diagonal L := by
      rw [Matrix.mul_assoc, hEig, ← Matrix.mul_assoc]
    have h2 : Vᵀ * B = Matrix.diagonal L * Vᵀ := by
      calc Vᵀ * B = Vᵀ * Bᵀ := by rw [hSym]
        _ = (B * V)ᵀ := by rw [← Matrix.transpose_mul]
        _ = (V * Matrix.diagonal L)ᵀ := by rw [hEig]
        _ = (Matrix.diagonal L)ᵀ * Vᵀ := by rw [Matrix.transpose_mul]
        _ = Matrix.diagonal L * Vᵀ := by rw [Matrix.diagonal_transpose]
    have hcomm : (Vᵀ * V) * Matrix.diagonal L = Matrix.diagonal L * (Vᵀ * V) := by
      calc (Vᵀ * V) * Matrix.diagonal L = Vᵀ * B * V := h1.symm
        _ = Matrix.diagonal L * Vᵀ * V := by rw [h2]
        _ = Matrix.diagonal L * (Vᵀ * V) := by rw [Matrix.mul_assoc]
    ext i j
    by_cases hij : i = j
    · subst hij
      rw [hUnit i, Matrix.one_apply_eq]
    · have hc := congrFun (congrFun hcomm i) j
      have hc' : (Vᵀ * V) i j * L j = L i * (Vᵀ * V) i j := by
        simpa [Matrix.mul_diagonal, Matrix.diagonal_mul] using hc
      have h0 : (Vᵀ * V) i j * (L j - L i) = 0 := by linear_combination hc'
      have hne : L j - L i ≠ 0 :=
        sub_ne_zero.mpr fun h => hij ((hDist h).symm)
      have hs : (Vᵀ * V) i j = 0 := by
        rcases mul_eq_zero.mp h0 with h | h
        · exact h
        · exact absurd h hne
      rw [hs, Matrix.one_apply_ne hij]
  have hUU : (qr Y * V)ᵀ * (qr Y * V) = 1 := by
    calc (qr Y * V)ᵀ * (qr Y * V)
        = Vᵀ * ((qr Y)ᵀ * (qr Y * V)) := by rw [Matrix.transpose_mul, Matrix.mul_assoc]
      _ = Vᵀ * (((qr Y)ᵀ * qr Y) * V) := by rw [Matrix.mul_assoc]
      _ = Vᵀ * V := by rw [hQ, Matrix.one_mul]
      _ = 1 := hVV
  constructor
  · show ((qr Y * (eig B).1).submatrix id (Fin.castAdd p))ᵀ *
      (qr Y * (eig B).1).submatrix id (Fin.castAdd p) = 1
    rw [← hV]
    ext i j
    have hentry : (((qr Y * V).submatrix id (Fin.castAdd p))ᵀ *
        (qr Y * V).submatrix id (Fin.castAdd p)) i j =
        ((qr Y * V)ᵀ * (qr Y * V)) (Fin.castAdd p i) (Fin.castAdd p j) := by
      simp [Matrix.mul_apply, Matrix.submatrix_apply, Matrix.transpose_apply]
    rw [hentry, hUU]
    by_cases hij : i = j
    · subst hij
      rw [Matrix.one_apply_eq, Matrix.one_apply_eq]
    · rw [Matrix.one_apply_ne hij,
        Matrix.one_apply_ne (fun h => hij (Fin.castAdd_injective k p h))]
  · intro i
    show 0 ≤ max ((eig B).2 (Fin.castAdd p i)) eps
    exact le_trans hEps (le_max_right _ _)

lemma fin_one_eq (i j : Fin (1 + 0)) : i = j := by
  have h1 := i.isLt
  have h2 := j.isLt
  exact Fin.ext (by omega)

/-- Concrete identity-like operator for the C6 witness. -/
def A_w6 : (Fin 1 → ℝ) → (Fin 1 → ℝ) := id

/-- Concrete 1-by-1 random matrix for the C6 witness. -/
def Ω_w6 : Matrix (Fin (1 + 0)) (Fin 1) ℝ := Matrix.of fun _ _ => 1

/-- Concrete QR oracle for the C6 witness (returns the 1-by-1 orthonormal factor). -/
def qr_w6 : Matrix (Fin 1) (Fin (1 + 0)) ℝ → Matrix (Fin 1) (Fin (1 + 0)) ℝ :=
  fun _ => Matrix.of fun _ _ => 1

/-- Concrete eigendecomposition oracle for the C6 witness. -/
def eig_w6 : Matrix (Fin (1 + 0)) (Fin (1 + 0)) ℝ →
    Matrix (Fin (1 + 0)) (Fin (1 + 0)) ℝ × (Fin (1 + 0) → ℝ) :=
  fun B => (Matrix.of fun _ _ => 1, fun i => B i i)

lemma smallB_w6 :
    small_B Ω_w6 (YmatOf A_w6 Ω_w6 1) (qr_w6 (YmatOf A_w6 Ω_w6 1)) = 1 := by
  have hself : ∀ C : Matrix (Fin (1 + 0)) (Fin (1 + 0)) ℝ,
      (∀ i j, C i j = 1) → C = 1 := by
    intro C hC
    ext i j
    rw [hC i j, fin_one_eq i j, Matrix.one_apply_eq]
  have h1 : Ω_w6 * qr_w6 (YmatOf A_w6 Ω_w6 1) = 1 := by
    refine hself _ fun i j => ?_
    simp [Matrix.mul_apply, Ω_w6, qr_w6, Fin.sum_univ_succ]
  have h2 : (YmatOf A_w6 Ω_w6 1)ᵀ * qr_w6 (YmatOf A_w6 Ω_w6 1) = 1 := by
    refine hself _ fun i j => ?_
    rw [YmatOf_eq_one_shot A_w6 Ω_w6 1 le_rfl]
    simp [Matrix.mul_apply, Matrix.transpose_apply, one_shot_Y, A_w6, Ω_w6, qr_w6,
      Fin.sum_univ_succ]
  unfold small_B
  rw [h1, Matrix.inv_eq_left_inv (one_mul 1), Matrix.one_mul, h2]

/-- C6 (witness): the contract hypotheses of `low_rank_basis_orthonormal_nonneg`
hold at a concrete one-dimensional instance, and the returned basis is exactly
orthonormal with non-negative eigenvalues. -/
theorem low_rank_basis_orthonormal_nonneg_witness :
    ((get_batched_low_rank_observation_cov_basis A_w6 Ω_w6 1 qr_w6 eig_w6 (1/1000)).1ᵀ *
      (get_batched_low_rank_observation_cov_basis A_w6 Ω_w6 1 qr_w6 eig_w6 (1/1000)).1 = 1) ∧
    (∀ i, 0 ≤ (get_batched_low_rank_observation_cov_basis A_w6 Ω_w6 1 qr_w6 eig_w6
      (1/1000)).2 i) := by
  have hB := smallB_w6
  refine low_rank_basis_orthonormal_nonneg A_w6 Ω_w6 1 qr_w6 eig_w6 (1/1000)
    (qr_w6 (YmatOf A_w6 Ω_w6 1))
    (Matrix.of fun _ _ => 1)
    (fun i => (small_B Ω_w6 (YmatOf A_w6 Ω_w6 1) (qr_w6 (YmatOf A_w6 Ω_w6 1))) i i)
    rfl rfl ?_ ?_ ?_ ?_ ?_ (by norm_num)
  · ext i j
    rw [fin_one_eq i j, Matrix.one_apply_eq]
    simp [Matrix.mul_apply, Matrix.transpose_apply, qr_w6, Fin.sum_univ_succ]
  · rw [hB]
    ext i j
    rw [Matrix.transpose_apply, fin_one_eq i j]
  · rw [hB]
    have hL : (fun i => (1 : Matrix (Fin (1 + 0)) (Fin (1 + 0)) ℝ) i i) =
        fun _ => (1 : ℝ) := funext fun i => Matrix.one_apply_eq i
    rw [hL, Matrix.diagonal_one, Matrix.one_mul, Matrix.mul_one]
  · intro j
    simp [Matrix.mul_apply, Matrix.transpose_apply, Fin.sum_univ_succ]
  · intro a b _
    exact fin_one_eq a b

/-- Concrete diagonal operator `diag(1, 2)` on observation space for the C7
counterexample. -/
def A_ce : (Fin 2 → ℝ) → (Fin 2 → ℝ) := fun v i => if (i : ℕ) = 1 then 2 * v i else v i

/-- Concrete 2-by-2 identity random matrix for the C7 counterexample
(`k = 1` requested eigenpair, oversampling `p = 1`). -/
def Ω_ce : Matrix (Fin (1 + 1)) (Fin 2) ℝ :=
  Matrix.of fun j m => if (j : ℕ) = (m : ℕ) then 1 else 0

/-- Concrete QR oracle for the C7 counterexample: the assembled probing matrix is
already diagonal with positive columns, so the orthonormal factor is the identity. -/
def qr_ce : Matrix (Fin 2) (Fin (1 + 1)) ℝ → Matrix (Fin 2) (Fin (1 + 1)) ℝ :=
  fun _ => Matrix.of fun m j => if (m : ℕ) = (j : ℕ) then 1 else 0

/-- Concrete eigendecomposition oracle for the C7 counterexample: a valid
eigendecomposition of the (diagonal) small matrix with the eigenvalues listed in
ascending order — `torch.linalg.eig` guarantees no ordering of the eigenvalues. -/
def eig_ce : Matrix (Fin (1 + 1)) (Fin (1 + 1)) ℝ →
    Matrix (Fin (1 + 1)) (Fin (1 + 1)) ℝ × (Fin (1 + 1) → ℝ) :=
  fun B => (Matrix.of fun i j => if (i : ℕ) = (j : ℕ) then 1 else 0, fun i => B i i)

/-- The probing matrix of the C7 counterexample instance. -/
def Y_ce : Matrix (Fin 2) (Fin (1 + 1)) ℝ := YmatOf A_ce Ω_ce 1

/-- The small matrix `B` of the C7 counterexample instance. -/
def B_ce : Matrix (Fin (1 + 1)) (Fin (1 + 1)) ℝ := small_B Ω_ce Y_ce (qr_ce Y_ce)

/-- The basis returned at the C7 counterexample instance. -/
def basis_ce : Matrix (Fin 2) (Fin 1) ℝ × (Fin 1 → ℝ) :=
  get_batched_low_rank_observation_cov_basis A_ce Ω_ce 1 qr_ce eig_ce (1/1000)

lemma fin_two_val (i : Fin (1 + 1)) : (i : ℕ) = 0 ∨ (i : ℕ) = 1 := by
  have h := i.isLt
  omega

lemma B_ce_entries : ∀ i j : Fin (1 + 1),
    B_ce i j = if (i : ℕ) = 0 ∧ (j : ℕ) = 0 then 1
      else if (i : ℕ) = 1 ∧ (j : ℕ) = 1 then 2 else 0 := by
  have hΩQ : Ω_ce * qr_ce Y_ce = 1 := by
    ext i j
    rcases fin_two_val i with hi | hi <;> rcases fin_two_val j with hj | hj <;>
      · simp [Matrix.mul_apply, Ω_ce, qr_ce, Fin.sum_univ_two, Matrix.one_apply,
          Fin.ext_iff, hi, hj]
  have hBmat : B_ce = Y_ceᵀ * qr_ce Y_ce := by
    unfold B_ce small_B
    rw [hΩQ, Matrix.inv_eq_left_inv (one_mul 1), Matrix.one_mul]
  have hY : Y_ce = one_shot_Y A_ce Ω_ce := YmatOf_eq_one_shot A_ce Ω_ce 1 le_rfl
  intro i j
  rw [hBmat, hY]
  rcases fin_two_val i with hi | hi <;> rcases fin_two_val j with hj | hj <;>
    · simp [Matrix.mul_apply, Matrix.transpose_apply, one_shot_Y, A_ce, Ω_ce, qr_ce,
        Fin.sum_univ_two, hi, hj]

/-- C7 (counterexample): at a concrete instance (`diag(1,2)` operator, identity
random matrix, `low_rank_rank_dim = 1`, oversampling `1`) with a legitimate
unordered eigendecomposition oracle, the code's eigendecomposition has
eigenvalues `1` (index 0) and `2` (index 1), satisfying the eigen-equation, yet
the returned single eigenvalue is the clamped first entry `1` — strictly smaller
than the clamped discarded eigenvalue `2` — so the returned pair is not the
top-`k` of the eigendecomposition. -/
theorem low_rank_truncation_not_top_k_ce :
    basis_ce.2 0 = 1 ∧ B_ce 1 1 = 2 ∧
    B_ce * (eig_ce B_ce).1 = (eig_ce B_ce).1 * Matrix.diagonal (eig_ce B_ce).2 ∧
    basis_ce.2 0 < max (B_ce 1 1) (1/1000) := by
  have h00 : B_ce 0 0 = 1 := by rw [B_ce_entries]; norm_num
  have h11 : B_ce 1 1 = 2 := by rw [B_ce_entries]; norm_num
  have hb : basis_ce.2 0 = max (B_ce 0 0) (1/1000) := rfl
  refine ⟨?_, h11, ?_, ?_⟩
  · rw [hb, h00]
    norm_num
  · ext i j
    rcases fin_two_val i with hi | hi <;> rcases fin_two_val j with hj | hj <;>
      · simp [Matrix.mul_apply, eig_ce, Matrix.diagonal_apply, Fin.sum_univ_two,
          Fin.ext_iff, hi, hj, B_ce_entries]
  · rw [hb, h00, h11]
    norm_num

/-- C7 (amended): `get_batched_low_rank_observation_cov_basis` returns exactly
`low_rank_rank_dim` eigenpairs, namely the *first* `low_rank_rank_dim` entries of
the eigendecomposition in the order produced by the eigensolver (which carries no
sorting guarantee, hence not necessarily the top-`k`); every returned eigenvalue
is clamped up to at least `eps` — values below `eps` are floored to `eps`, and no
eigenpair is removed (each returned entry is the corresponding raw eigenvalue or
`eps`). -/
theorem low_rank_truncation_first_k_clamped {M k p : ℕ}
    (A : (Fin M → ℝ) → (Fin M → ℝ)) (Ω : Matrix (Fin (k + p)) (Fin M) ℝ)
    (b : ℕ)
    (qr : Matrix (Fin M) (Fin (k + p)) ℝ → Matrix (Fin M) (Fin (k + p)) ℝ)
    (eig : Matrix (Fin (k + p)) (Fin (k + p)) ℝ →
      Matrix (Fin (k + p)) (Fin (k + p)) ℝ × (Fin (k + p) → ℝ))
    (eps : ℝ) :
    (∀ i : Fin k, (get_batched_low_rank_observation_cov_basis A Ω b qr eig eps).2 i =
      max ((eig (small_B Ω (YmatOf A Ω b) (qr (YmatOf A Ω b)))).2 (Fin.castAdd p i)) eps) ∧
    (∀ i, eps ≤ (get_batched_low_rank_observation_cov_basis A Ω b qr eig eps).2 i) ∧
    (∀ i, (get_batched_low_rank_observation_cov_basis A Ω b qr eig eps).2 i =
        (eig (small_B Ω (YmatOf A Ω b) (qr (YmatOf A Ω b)))).2 (Fin.castAdd p i) ∨
      (get_batched_low_rank_observation_cov_basis A Ω b qr eig eps).2 i = eps) :=
  ⟨fun _ => rfl, fun _ => le_max_right _ _, fun _ => max_choice _ _⟩

/-- C8: for every batch size `vec_batch_size ≥ 1`, the batch-wise assembled
probing matrix (zero-padding the final partial batch and discarding the padded
rows) equals the operator applied to all `k + oversampling` rows of the fixed
random matrix at once, and consequently the returned basis does not depend on
the batch size. -/
theorem assembleY_batch_independent {M k p : ℕ}
    (A : (Fin M → ℝ) → (Fin M → ℝ)) (Ω : Matrix (Fin (k + p)) (Fin M) ℝ)
    (b : ℕ)
    (qr : Matrix (Fin M) (Fin (k + p)) ℝ → Matrix (Fin M) (Fin (k + p)) ℝ)
    (eig : Matrix (Fin (k + p)) (Fin (k + p)) ℝ →
      Matrix (Fin (k + p)) (Fin (k + p)) ℝ × (Fin (k + p) → ℝ))
    (eps : ℝ) (hb : 1 ≤ b) :
    YmatOf A Ω b = one_shot_Y A Ω ∧
    get_batched_low_rank_observation_cov_basis A Ω b qr eig eps =
      get_batched_low_rank_observation_cov_basis A Ω 1 qr eig eps := by
  refine ⟨YmatOf_eq_one_shot A Ω b hb, ?_⟩
  simp only [get_batched_low_rank_observation_cov_basis]
  rw [YmatOf_eq_one_shot A Ω b hb, YmatOf_eq_one_shot A Ω 1 le_rfl]

/-- C8 (witness): the batch-size hypothesis holds at `vec_batch_size = 2` on a
concrete one-dimensional instance, and the theorem applies. -/
theorem assembleY_batch_independent_witness :
    1 ≤ 2 ∧
    (YmatOf A_w6 Ω_w6 2 = one_shot_Y A_w6 Ω_w6 ∧
    get_batched_low_rank_observation_cov_basis A_w6 Ω_w6 2 qr_w6 eig_w6 (1/1000) =
      get_batched_low_rank_observation_cov_basis A_w6 Ω_w6 1 qr_w6 eig_w6 (1/1000)) :=
  ⟨by norm_num,
    assembleY_batch_independent A_w6 Ω_w6 2 qr_w6 eig_w6 (1/1000) (by norm_num)⟩

/-! ## `weights_linearization` (weights_linearization.py, lines 15-152)

Image space has `N` pixels, observation space `Mo` entries, and the flattened
weight vector `P` entries.  The external collaborators — the neural basis
expansion objects (JVP/VJP pairs), the construction of the pre-sigmoid
expansion `NeuralBasisExpansion(UNetReturnPreSigmoid(nn_model), ...)`, the
`GpriorNeuralBasisExpansion` wrapper, the ray transform, `batch_tv_grad` and
the Adam update — are modelled as opaque functions carried by an environment
record.  `optim_kwargs` is a Python dict, modelled as a partial map from
strings; reading a missing key raises `KeyError` at the point of use. -/

/-- A value stored in `optim_kwargs`. -/
inductive PyVal where
  | bool (b : Bool)
  | real (x : ℝ)
  | nat (n : ℕ)
  | dict

/-- The `optim_kwargs` dictionary. -/
def Kwargs : Type := String → Option PyVal

/-- Python dict item access `kw[key]`: `KeyError` when the key is missing. -/
def getItem (kw : Kwargs) (key : String) : Except PyError PyVal :=
  match kw key with
  | some v => .ok v
  | none => .error .keyError

/-- Read a boolean option (missing key: `KeyError`; wrong type: `TypeError`). -/
def getBool (kw : Kwargs) (key : String) : Except PyError Bool :=
  match kw key with
  | some (.bool b) => .ok b
  | some _ => .error .typeError
  | none => .error .keyError

/-- Read a float option. -/
def getReal (kw : Kwargs) (key : String) : Except PyError ℝ :=
  match kw key with
  | some (.real x) => .ok x
  | some _ => .error .typeError
  | none => .error .keyError

/-- Read an integer option. -/
def getNat (kw : Kwargs) (key : String) : Except PyError ℕ :=
  match kw key with
  | some (.nat n) => .ok n
  | some _ => .error .typeError
  | none => .error .keyError

lemma getItem_ok {kw : Kwargs} {key : String} {v : PyVal}
    (h : kw key = some v) : getItem kw key = .ok v := by
  unfold getItem
  rw [h]

lemma getBool_ok {kw : Kwargs} {key : String} {b : Bool}
    (h : kw key = some (.bool b)) : getBool kw key = .ok b := by
  unfold getBool
  rw [h]

lemma getReal_ok {kw : Kwargs} {key : String} {x : ℝ}
    (h : kw key = some (.real x)) : getReal kw key = .ok x := by
  unfold getReal
  rw [h]

lemma getNat_ok {kw : Kwargs} {key : String} {n : ℕ}
    (h : kw key = some (.nat n)) : getNat kw key = .ok n := by
  unfold getNat
  rw [h]

/-- A neural basis expansion: the JVP and VJP of the (frozen-weights) network. -/
structure NBE (N P : ℕ) where
  jvp : (Fin P → ℝ) → (Fin N → ℝ)
  vjp : (Fin N → ℝ) → (Fin P → ℝ)

/-- The external collaborators and fixed tensors of `weights_linearization`. -/
structure WLEnv (N Mo P : ℕ) where
  use_sigmoid : Bool
  nbe : NBE N P
  preSigmoidNBE : NBE N P
  mkGprior : NBE N P → NBE N P
  recon_no_activation : Fin N → ℝ
  map_weights : Fin P → ℝ
  observation : Fin Mo → ℝ
  trafoF : (Fin N → ℝ) → (Fin Mo → ℝ)
  trafoAdj : (Fin Mo → ℝ) → (Fin N → ℝ)
  tvGrad : (Fin N → ℝ) → (Fin N → ℝ)
  adamStep : (Fin P → ℝ) → (Fin P → ℝ) → (Fin P → ℝ)

/-- The logistic sigmoid `torch.sigmoid`. -/
def sigmoid (x : ℝ) : ℝ := 1 / (1 + Real.exp (-x))

/-- Lines 82-98: when the network's output layer uses a sigmoid, rebuild the
neural basis expansion around the pre-sigmoid network
(`UNetReturnPreSigmoid(nn_model)`), reading `optim_kwargs['use_gprior']` (and,
if set, `optim_kwargs['gprior_scale_kwargs']`) only inside this branch;
otherwise use the expansion passed by the caller. -/
def effective_nbe {N Mo P : ℕ} (env : WLEnv N Mo P) (kw : Kwargs) :
    Except PyError (NBE N P) :=
  match env.use_sigmoid with
  | true =>
    (match getBool kw "use_gprior" with
     | .error e => .error e
     | .ok true =>
       (match getItem kw "gprior_scale_kwargs" with
        | .error e => .error e
        | .ok _ => .ok (env.mkGprior env.preSigmoidNBE))
     | .ok false => .ok env.preSigmoidNBE)
  | false => .ok env.nbe

/-- One iteration of the optimization loop (lines 113-146): form the
finite-difference vector, linearize through the JVP, add the frozen
pre-activation reconstruction in standard mode, apply the sigmoid if the
network uses one, form the data-discrepancy and TV gradients in image space,
fold in the sigmoid-derivative factor `lin_recon * (1 - lin_recon)` in the
sigmoid case, pull back through the VJP, and take an optimizer step with
weight decay. -/
def wl_step {N Mo P : ℕ} (env : WLEnv N Mo P) (kw : Kwargs) (nbe : NBE N P)
    (precision : ℝ) (w : Fin P → ℝ) :
    Except PyError ((Fin P → ℝ) × (Fin N → ℝ)) :=
  match getBool kw "simplified_eqn" with
  | .error e => .error e
  | .ok simplified =>
    let fd_vector := if simplified then w else fun i => w i - env.map_weights i
    let lin0 := nbe.jvp fd_vector
    match getBool kw "simplified_eqn" with
    | .error e => .error e
    | .ok simplified2 =>
      let lin1 := if simplified2 then lin0 else fun i => lin0 i + env.recon_no_activation i
      let lin_recon := if env.use_sigmoid then fun i => sigmoid (lin1 i) else lin1
      let proj := env.trafoF lin_recon
      let norm_grad := env.trafoAdj fun m => env.observation m - proj m
      match getReal kw "gamma" with
      | .error e => .error e
      | .ok gamma =>
        let v := fun i =>
          -2 / (Mo : ℝ) * precision * norm_grad i + gamma * env.tvGrad lin_recon i
        let v2 := if env.use_sigmoid then fun i => v i * lin_recon i * (1 - lin_recon i)
          else v
        let grads_vec := nbe.vjp v2
        match getReal kw "wd" with
        | .error e => .error e
        | .ok wd => .ok (env.adamStep w fun i => grads_vec i + wd * w i, lin_recon)

/-- The optimization loop (`for _ in pbar`), threading the weights and the last
computed reconstruction (`lin_recon` is only defined after the first
iteration). -/
def wl_loop {N Mo P : ℕ} (env : WLEnv N Mo P) (kw : Kwargs) (nbe : NBE N P)
    (precision : ℝ) :
    ℕ → (Fin P → ℝ) → Option (Fin N → ℝ) →
      Except PyError ((Fin P → ℝ) × Option (Fin N → ℝ))
  | 0, w, rec => .ok (w, rec)
  | n + 1, w, _ =>
    match wl_step env kw nbe precision w with
    | .error e => .error e
    | .ok res => wl_loop env kw nbe precision n res.1 (some res.2)

/-- Shallow embedding of `weights_linearization`: select the effective basis
expansion (lines 82-98), initialize the weights (zero in simplified mode, the
MAP weights otherwise, lines 103-105), read the learning rate and noise
precision (lines 106-108), run `iterations` loop steps (lines 110-150), and
return the final weights and reconstruction (line 152; with zero iterations
`lin_recon` was never assigned, a `NameError`). -/
def weights_linearization {N Mo P : ℕ} (env : WLEnv N Mo P) (kw : Kwargs) :
    Except PyError ((Fin P → ℝ) × (Fin N → ℝ)) :=
  match effective_nbe env kw with
  | .error e => .error e
  | .ok nbe =>
    match getBool kw "simplified_eqn" with
    | .error e => .error e
    | .ok simplified =>
      let w0 := if simplified then (fun _ => (0 : ℝ)) else env.map_weights
      match getReal kw "lr" with
      | .error e => .error e
      | .ok _lr =>
        match getReal kw "noise_precision" with
        | .error e => .error e
        | .ok precision =>
          match getNat kw "iterations" with
          | .error e => .error e
          | .ok iters =>
            match wl_loop env kw nbe precision iters w0 none with
            | .error e => .error e
            | .ok res =>
              match res.2 with
              | some rec => .ok (res.1, rec)
              | none => .error .nameError

/-- The linearized pre-activation reconstruction of one iteration:
`jvp` of the finite-difference vector, plus the frozen pre-activation MAP
reconstruction in standard (non-simplified) mode. -/
def lin_pre {N Mo P : ℕ} (env : WLEnv N Mo P) (nbe : NBE N P) (simplified : Bool)
    (w : Fin P → ℝ) : Fin N → ℝ :=
  let fd_vector := if simplified then w else fun i => w i - env.map_weights i
  let lin0 := nbe.jvp fd_vector
  if simplified then lin0 else fun i => lin0 i + env.recon_no_activation i

/-- The image-space gradient of the data-discrepancy-plus-TV objective at a
reconstruction (line 137): `-2/numel * precision * trafo_adjoint(observation -
trafo(lin_recon)) + gamma * tv_grad(lin_recon)`. -/
def data_tv_grad {N Mo P : ℕ} (env : WLEnv N Mo P) (precision gamma : ℝ)
    (lin_recon : Fin N → ℝ) : Fin N → ℝ :=
  fun i => -2 / (Mo : ℝ) * precision *
      (env.trafoAdj fun m => env.observation m - env.trafoF lin_recon m) i +
    gamma * env.tvGrad lin_recon i

lemma sigmoid_hasDerivAt (x : ℝ) :
    HasDerivAt sigmoid (sigmoid x * (1 - sigmoid x)) x := by
  have hpos : 0 < 1 + Real.exp (-x) := by positivity
  have hne : 1 + Real.exp (-x) ≠ 0 := ne_of_gt hpos
  have h0 : HasDerivAt (fun y : ℝ => -y) (-1) x := by
    simpa using (hasDerivAt_id x).neg
  have hexp : HasDerivAt (fun y : ℝ => Real.exp (-y)) (Real.exp (-x) * (-1)) x :=
    (Real.hasDerivAt_exp (-x)).comp x h0
  have h1 : HasDerivAt (fun y : ℝ => 1 + Real.exp (-y)) (Real.exp (-x) * (-1)) x := by
    simpa using (hasDerivAt_const x (1 : ℝ)).add hexp
  have h2 := h1.inv hne
  have h3 : HasDerivAt sigmoid
      (-(Real.exp (-x) * (-1)) / (1 + Real.exp (-x)) ^ 2) x := by
    refine h2.congr_of_eventuallyEq (Filter.Eventually.of_forall fun y => ?_)
    simp [sigmoid, one_div]
  convert h3 using 1
  have hsig : sigmoid x = (1 + Real.exp (-x))⁻¹ := by simp [sigmoid, one_div]
  rw [hsig]
  field_simp
  ring

/-- C9: when the network's output layer uses a sigmoid, the basis expansion
whose JVP/VJP the loop uses is the one rebuilt around the pre-sigmoid network;
each iteration applies the sigmoid to the linearized reconstruction and pulls
back through the VJP the image-space data-plus-TV gradient multiplied
elementwise by `lin_recon * (1 - lin_recon)` — which is exactly the derivative
of the sigmoid at the pre-sigmoid value; when the network has no sigmoid, the
same gradient is pulled back with no such factor and no sigmoid is applied. -/
theorem weights_linearization_sigmoid_chain_rule {N Mo P : ℕ}
    (env : WLEnv N Mo P) (kw : Kwargs) (nbe : NBE N P) (precision : ℝ)
    (w : Fin P → ℝ) (b : Bool) (γ δ : ℝ)
    (hs : kw "simplified_eqn" = some (.bool b))
    (hg : kw "gamma" = some (.real γ))
    (hw : kw "wd" = some (.real δ)) :
    (env.use_sigmoid = true → kw "use_gprior" = some (.bool false) →
      effective_nbe env kw = .ok env.preSigmoidNBE) ∧
    (env.use_sigmoid = true →
      wl_step env kw nbe precision w = .ok
        (env.adamStep w fun i =>
            nbe.vjp (fun j =>
              data_tv_grad env precision γ
                  (fun t => sigmoid (lin_pre env nbe b w t)) j *
                sigmoid (lin_pre env nbe b w j) *
                (1 - sigmoid (lin_pre env nbe b w j))) i + δ * w i,
         fun j => sigmoid (lin_pre env nbe b w j))) ∧
    (∀ x : ℝ, HasDerivAt sigmoid (sigmoid x * (1 - sigmoid x)) x) ∧
    (env.use_sigmoid = false →
      wl_step env kw nbe precision w = .ok
        (env.adamStep w fun i =>
            nbe.vjp (data_tv_grad env precision γ (lin_pre env nbe b w)) i + δ * w i,
         lin_pre env nbe b w)) := by
  refine ⟨?_, ?_, sigmoid_hasDerivAt, ?_⟩
  · intro hsig hgp
    unfold effective_nbe
    rw [hsig, getBool_ok hgp]
  · intro hsig
    unfold wl_step
    rw [getBool_ok hs, getReal_ok hg, getReal_ok hw, hsig]
    simp only [lin_pre, data_tv_grad, if_true]
  · intro hsig
    unfold wl_step
    rw [getBool_ok hs, getReal_ok hg, getReal_ok hw, hsig]
    simp only [lin_pre, data_tv_grad, Bool.false_eq_true, if_false]
    rfl

/-- C10: if the network uses a sigmoid and `optim_kwargs` lacks `'use_gprior'`,
`weights_linearization` fails with `KeyError` at the point of use (line 90,
inside the sigmoid branch, before any optimization); if the network does not
use a sigmoid, the `'use_gprior'` entry is never read — the result is unchanged
under any modification of that entry — and with the other required options
present (and at least one iteration) the function completes without error. -/
theorem weights_linearization_use_gprior_point_of_use {N Mo P : ℕ}
    (env : WLEnv N Mo P) (kw : Kwargs) :
    (env.use_sigmoid = true → kw "use_gprior" = none →
      weights_linearization env kw = .error .keyError) ∧
    (env.use_sigmoid = false →
      (∀ kw2 : Kwargs, (∀ key, key ≠ "use_gprior" → kw2 key = kw key) →
        weights_linearization env kw2 = weights_linearization env kw) ∧
      (∀ (b : Bool) (lr prec γ δ : ℝ) (n : ℕ),
        kw "simplified_eqn" = some (.bool b) →
        kw "lr" = some (.real lr) →
        kw "noise_precision" = some (.real prec) →
        kw "iterations" = some (.nat n) →
        kw "gamma" = some (.real γ) →
        kw "wd" = some (.real δ) →
        1 ≤ n →
        ∃ out, weights_linearization env kw = .ok out)) := by
  constructor
  · intro hsig hnone
    simp only [weights_linearization, effective_nbe, getBool, hsig, hnone]
  · intro hsig
    constructor
    · intro kw2 hagree
      have hb2 : getBool kw2 "simplified_eqn" = getBool kw "simplified_eqn" := by
        unfold getBool
        rw [hagree "simplified_eqn" (by decide)]
      have hlr2 : getReal kw2 "lr" = getReal kw "lr" := by
        unfold getReal
        rw [hagree "lr" (by decide)]
      have hprec2 : getReal kw2 "noise_precision" = getReal kw "noise_precision" := by
        unfold getReal
        rw [hagree "noise_precision" (by decide)]
      have hiter2 : getNat kw2 "iterations" = getNat kw "iterations" := by
        unfold getNat
        rw [hagree "iterations" (by decide)]
      have hγ2 : getReal kw2 "gamma" = getReal kw "gamma" := by
        unfold getReal
        rw [hagree "gamma" (by decide)]
      have hδ2 : getReal kw2 "wd" = getReal kw "wd" := by
        unfold getReal
        rw [hagree "wd" (by decide)]
      have hstepc : ∀ nbe2 prec2 w2,
          wl_step env kw2 nbe2 prec2 w2 = wl_step env kw nbe2 prec2 w2 := by
        intro nbe2 prec2 w2
        unfold wl_step
        rw [hb2, hγ2, hδ2]
      have hloopc : ∀ nbe2 prec2 n2 w2 rec,
          wl_loop env kw2 nbe2 prec2 n2 w2 rec =
            wl_loop env kw nbe2 prec2 n2 w2 rec := by
        intro nbe2 prec2 n2
        induction n2 with
        | zero => intro w2 rec; rfl
        | succ m ih =>
          intro w2 rec
          simp only [wl_loop]
          rw [hstepc]
          cases wl_step env kw nbe2 prec2 w2 with
          | error e => rfl
          | ok res => exact ih res.1 (some res.2)
      have hWL : wl_loop env kw2 = wl_loop env kw := by
        funext nbe2 prec2 n2 w2 rec
        exact hloopc nbe2 prec2 n2 w2 rec
      simp only [weights_linearization, effective_nbe, hsig]
      rw [hb2, hlr2, hprec2, hiter2, hWL]
    · intro b lr prec γ δ n hsB hlr hprec hiter hgam hwd hn
      have hstep_ok : ∀ nbe2 prec2 w2, ∃ out,
          wl_step env kw nbe2 prec2 w2 = .ok out := by
        intro nbe2 prec2 w2
        unfold wl_step
        rw [getBool_ok hsB, getReal_ok hgam, getReal_ok hwd]
        exact ⟨_, rfl⟩
      have hloop_ok : ∀ nbe2 prec2 n2 w2 rec, ∃ res,
          wl_loop env kw nbe2 prec2 n2 w2 rec = .ok res ∧
          ((rec.isSome = true ∨ 1 ≤ n2) → res.2.isSome = true) := by
        intro nbe2 prec2 n2
        induction n2 with
        | zero =>
          intro w2 rec
          refine ⟨(w2, rec), rfl, ?_⟩
          rintro (h | h)
          · exact h
          · omega
        | succ m ih =>
          intro w2 rec
          obtain ⟨out, hout⟩ := hstep_ok nbe2 prec2 w2
          obtain ⟨res, hres, hsome⟩ := ih out.1 (some out.2)
          refine ⟨res, ?_, fun _ => hsome (Or.inl rfl)⟩
          simp only [wl_loop]
          rw [hout]
          exact hres
      obtain ⟨res, hres, hsome⟩ := hloop_ok env.nbe prec n
        (if b = true then (fun _ => (0 : ℝ)) else env.map_weights) none
      have h2 := hsome (Or.inr hn)
      cases hre2 : res.2 with
      | none =>
        rw [hre2] at h2
        simp at h2
      | some rec =>
        refine ⟨(res.1, rec), ?_⟩
        simp only [weights_linearization, effective_nbe, hsig, getBool_ok hsB,
          getReal_ok hlr, getReal_ok hprec, getNat_ok hiter, hres, hre2]

/-- A concrete one-pixel environment for the `weights_linearization` witnesses. -/
def env_w (sig : Bool) : WLEnv 1 1 1 where
  use_sigmoid := sig
  nbe := ⟨fun w => w, fun v => v⟩
  preSigmoidNBE := ⟨fun w => w, fun v => v⟩
  mkGprior := fun x => x
  recon_no_activation := fun _ => 0
  map_weights := fun _ => 0
  observation := fun _ => 0
  trafoF := fun x => x
  trafoAdj := fun x => x
  tvGrad := fun _ => fun _ => 0
  adamStep := fun w _ => w

/-- A concrete complete `optim_kwargs` dictionary for the witnesses. -/
def kw_w : Kwargs := fun s =>
  if s = "use_gprior" then some (.bool false)
  else if s = "simplified_eqn" then some (.bool true)
  else if s = "lr" then some (.real 1)
  else if s = "noise_precision" then some (.real 1)
  else if s = "iterations" then some (.nat 1)
  else if s = "gamma" then some (.real 1)
  else if s = "wd" then some (.real 1)
  else none

/-- The same dictionary with the `'use_gprior'` entry missing. -/
def kw_w0 : Kwargs := fun s =>
  if s = "simplified_eqn" then some (.bool true)
  else if s = "lr" then some (.real 1)
  else if s = "noise_precision" then some (.real 1)
  else if s = "iterations" then some (.nat 1)
  else if s = "gamma" then some (.real 1)
  else if s = "wd" then some (.real 1)
  else none

/-- The complete dictionary with the `'use_gprior'` entry overwritten. -/
def kw_w_alt : Kwargs := fun s =>
  if s = "use_gprior" then some PyVal.dict else kw_w s

/-- C9 (witness): the kwargs-lookup hypotheses of
`weights_linearization_sigmoid_chain_rule` hold at a concrete one-pixel
sigmoid-mode instance, where the theorem yields the pre-sigmoid basis
selection, the factored step equation, and the sigmoid-derivative identity. -/
theorem weights_linearization_sigmoid_chain_rule_witness :
    effective_nbe (env_w true) kw_w = .ok (env_w true).preSigmoidNBE ∧
    wl_step (env_w true) kw_w (env_w true).preSigmoidNBE 1 (fun _ => 0) = .ok
      ((env_w true).adamStep (fun _ => 0) fun i =>
          (env_w true).preSigmoidNBE.vjp (fun j =>
            data_tv_grad (env_w true) 1 1
                (fun t => sigmoid
                  (lin_pre (env_w true) (env_w true).preSigmoidNBE true (fun _ => 0) t)) j *
              sigmoid (lin_pre (env_w true) (env_w true).preSigmoidNBE true (fun _ => 0) j) *
              (1 - sigmoid
                (lin_pre (env_w true) (env_w true).preSigmoidNBE true (fun _ => 0) j))) i +
          1 * (fun _ : Fin 1 => (0 : ℝ)) i,
       fun j => sigmoid (lin_pre (env_w true) (env_w true).preSigmoidNBE true (fun _ => 0) j)) ∧
    ∀ x : ℝ, HasDerivAt sigmoid (sigmoid x * (1 - sigmoid x)) x := by
  have h := weights_linearization_sigmoid_chain_rule (env_w true) kw_w
    (env_w true).preSigmoidNBE 1 (fun _ => 0) true 1 1
    (by simp [kw_w]) (by simp [kw_w]) (by simp [kw_w])
  exact ⟨h.1 rfl (by simp [kw_w]), h.2.1 rfl, h.2.2.1⟩

/-- C10 (witness): at concrete instances, a sigmoid-mode call with
`'use_gprior'` missing raises `KeyError`; a non-sigmoid call is unaffected by
overwriting the `'use_gprior'` entry and completes with a result. -/
theorem weights_linearization_use_gprior_witness :
    weights_linearization (env_w true) kw_w0 = .error .keyError ∧
    weights_linearization (env_w false) kw_w_alt =
      weights_linearization (env_w false) kw_w ∧
    ∃ out, weights_linearization (env_w false) kw_w = .ok out := by
  have h1 := weights_linearization_use_gprior_point_of_use (env_w true) kw_w0
  have h2 := weights_linearization_use_gprior_point_of_use (env_w false) kw_w
  refine ⟨h1.1 rfl (by simp [kw_w0]), ?_, ?_⟩
  · exact (h2.2 rfl).1 kw_w_alt (fun key hk => by simp [kw_w_alt, hk])
  · exact (h2.2 rfl).2 true 1 1 1 1 1 (by simp [kw_w]) (by simp [kw_w])
      (by simp [kw_w]) (by simp [kw_w]) (by simp [kw_w]) (by simp [kw_w])
      le_rfl
